import Mathlib

/-!
# Verification of the `simple-merkle-tree` crate

A shallow embedding of `src/main.rs`: SHA-256 over byte lists, the `Node` /
`MerkleTree` / `MerkleProof` structures, tree construction (`MerkleTree::new`),
proof generation (`generate_proof` with its inner `build_proof` helper) and
proof verification (`MerkleProof::verify`, `MerkleTree::verify_proof`).

Bytes are `Nat`s; a digest is a `List Nat`. Machine arithmetic inside SHA-256
is `Nat` arithmetic reduced modulo `2 ^ 32` where the Rust `u32` wraps.
Fallible operations return `Option`: in particular `MerkleTree.new` returns
`none` exactly where the Rust code panics (the `nodes[i + 1]` index out of
bounds reached when an interior level has odd length, and the impossible
`remove(0)` on an empty vector).
-/

/-! ## SHA-256 (the `sha2` crate's function, per FIPS 180-4) -/

/-- Truncate to a 32-bit word. -/
def w32 (x : Nat) : Nat := x % 4294967296

/-- Right rotation of a 32-bit word. -/
def rotr (n x : Nat) : Nat := w32 ((x >>> n) ||| (x <<< (32 - n)))

/-- The big Σ0 function of SHA-256. -/
def bsig0 (x : Nat) : Nat := rotr 2 x ^^^ rotr 13 x ^^^ rotr 22 x

/-- The big Σ1 function of SHA-256. -/
def bsig1 (x : Nat) : Nat := rotr 6 x ^^^ rotr 11 x ^^^ rotr 25 x

/-- The small σ0 function of SHA-256. -/
def ssig0 (x : Nat) : Nat := rotr 7 x ^^^ rotr 18 x ^^^ (x >>> 3)

/-- The small σ1 function of SHA-256. -/
def ssig1 (x : Nat) : Nat := rotr 17 x ^^^ rotr 19 x ^^^ (x >>> 10)

/-- The SHA-256 choice function. -/
def chf (x y z : Nat) : Nat := (x &&& y) ^^^ ((x ^^^ 4294967295) &&& z)

/-- The SHA-256 majority function. -/
def majf (x y z : Nat) : Nat := (x &&& y) ^^^ (x &&& z) ^^^ (y &&& z)

/-- The SHA-256 round constants (FIPS 180-4 §4.2.2, written in decimal). -/
def K256 : List Nat :=
  [1116352408, 1899447441, 3049323471, 3921009573,
   961987163, 1508970993, 2453635748, 2870763221,
   3624381080, 310598401, 607225278, 1426881987,
   1925078388, 2162078206, 2614888103, 3248222580,
   3835390401, 4022224774, 264347078, 604807628,
   770255983, 1249150122, 1555081692, 1996064986,
   2554220882, 2821834349, 2952996808, 3210313671,
   3336571891, 3584528711, 113926993, 338241895,
   666307205, 773529912, 1294757372, 1396182291,
   1695183700, 1986661051, 2177026350, 2456956037,
   2730485921, 2820302411, 3259730800, 3345764771,
   3516065817, 3600352804, 4094571909, 275423344,
   430227734, 506948616, 659060556, 883997877,
   958139571, 1322822218, 1537002063, 1747873779,
   1955562222, 2024104815, 2227730452, 2361852424,
   2428436474, 2756734187, 3204031479, 3329325298]

/-- The eight 32-bit words of a SHA-256 chaining state. -/
structure H8 where
  a : Nat
  b : Nat
  c : Nat
  d : Nat
  e : Nat
  f : Nat
  g : Nat
  h : Nat

/-- The SHA-256 initial chaining state (FIPS 180-4 §5.3.3, in decimal). -/
def H8.start : H8 :=
  ⟨1779033703, 3144134277, 1013904242, 2773480762,
   1359893119, 2600822924, 528734635, 1541459225⟩

/-- One SHA-256 compression round, fed a pair of round constant and schedule word. -/
def sha256Round (st : H8) (kw : Nat × Nat) : H8 :=
  let t1 := w32 (st.h + bsig1 st.e + chf st.e st.f st.g + kw.1 + kw.2)
  let t2 := w32 (bsig0 st.a + majf st.a st.b st.c)
  ⟨w32 (t1 + t2), st.a, st.b, st.c, w32 (st.d + t1), st.e, st.f, st.g⟩

/-- Big-endian 32-bit words from a byte list (groups of four). -/
def toWords : List Nat → List Nat
  | b0 :: b1 :: b2 :: b3 :: rest =>
    (b0 * 16777216 + b1 * 65536 + b2 * 256 + b3) :: toWords rest
  | _ => []

/-- Extend the 16-word message schedule by `n` further words. -/
def extendWords : Nat → List Nat → List Nat
  | 0, ws => ws
  | n + 1, ws =>
    let t := ws.length
    let wt := w32 (ssig1 (ws.getD (t - 2) 0) + ws.getD (t - 7) 0 +
      ssig0 (ws.getD (t - 15) 0) + ws.getD (t - 16) 0)
    extendWords n (ws ++ [wt])

/-- Compress one 64-byte chunk into the chaining state. -/
def compressChunk (st : H8) (chunk : List Nat) : H8 :=
  let ws := extendWords 48 (toWords chunk)
  let t := (K256.zip ws).foldl sha256Round st
  ⟨w32 (st.a + t.a), w32 (st.b + t.b), w32 (st.c + t.c), w32 (st.d + t.d),
   w32 (st.e + t.e), w32 (st.f + t.f), w32 (st.g + t.g), w32 (st.h + t.h)⟩

/-- The message length in bits as eight big-endian bytes. -/
def lenBytes (n : Nat) : List Nat :=
  [(n >>> 56) % 256, (n >>> 48) % 256, (n >>> 40) % 256, (n >>> 32) % 256,
   (n >>> 24) % 256, (n >>> 16) % 256, (n >>> 8) % 256, n % 256]

/-- SHA-256 padding: a 0x80 byte, zeros up to 56 mod 64, then the bit length. -/
def padMessage (msg : List Nat) : List Nat :=
  msg ++ 128 :: List.replicate ((119 - msg.length % 64) % 64) 0 ++ lenBytes (8 * msg.length)

/-- Split into 64-byte chunks; the fuel is any bound on the number of chunks. -/
def chunks64 : Nat → List Nat → List (List Nat)
  | 0, _ => []
  | _ + 1, [] => []
  | f + 1, l => l.take 64 :: chunks64 f (l.drop 64)

/-- The four big-endian bytes of a 32-bit word. -/
def wordBytes (x : Nat) : List Nat :=
  [(x >>> 24) % 256, (x >>> 16) % 256, (x >>> 8) % 256, x % 256]

/-- SHA-256 of a byte list, as a 32-byte digest. -/
def sha256 (msg : List Nat) : List Nat :=
  let padded := padMessage msg
  let st := (chunks64 padded.length padded).foldl compressChunk H8.start
  wordBytes st.a ++ wordBytes st.b ++ wordBytes st.c ++ wordBytes st.d ++
    wordBytes st.e ++ wordBytes st.f ++ wordBytes st.g ++ wordBytes st.h

/-! ## The `Node` struct and its constructors -/

/-- A node in the Merkle tree: a digest plus optional children, mirroring the
Rust `Node { hash, left, right }` struct. -/
inductive Node where
  | mk (hash : List Nat) (left : Option Node) (right : Option Node)

/-- The `hash` field of a node. -/
def Node.hash : Node → List Nat
  | .mk h _ _ => h

/-- The `left` field of a node. -/
def Node.left : Node → Option Node
  | .mk _ l _ => l

/-- The `right` field of a node. -/
def Node.right : Node → Option Node
  | .mk _ _ r => r

/-- `Node::new_leaf`: a leaf node hashing the given record, with no children. -/
def Node.new_leaf (data : List Nat) : Node :=
  .mk (sha256 data) none none

/-- `Node::new_internal`: an interior node hashing the concatenation of its two
children's digests. -/
def Node.new_internal (left right : Node) : Node :=
  .mk (sha256 (left.hash ++ right.hash)) (some left) (some right)

/-- The leaf test used by `build_proof`: both children absent. -/
def Node.isLeaf : Node → Bool
  | .mk _ none none => true
  | _ => false

/-! ## `MerkleTree::new` -/

/-- The `MerkleTree` struct: an optional root node. -/
structure MerkleTree where
  root : Option Node

/-- One pass of the `for i in (0..nodes.len()).step_by(2)` pairing loop:
parents of consecutive pairs. Rust indexes `nodes[i + 1]` unconditionally, so a
trailing unpaired node is an out-of-bounds panic, modelled as `none`. -/
def pairNodes : List Node → Option (List Node)
  | [] => some []
  | [_] => none
  | a :: b :: rest => (pairNodes rest).map fun l => Node.new_internal a b :: l

/-- The `while nodes.len() > 1` loop of `MerkleTree::new`. The fuel only bounds
the iteration count; `MerkleTree.new` passes the level's length, which the
halving always keeps sufficient. -/
def buildLevels : Nat → List Node → Option (List Node)
  | 0, nodes => if nodes.length > 1 then none else some nodes
  | fuel + 1, nodes =>
    if nodes.length > 1 then
      match pairNodes nodes with
      | none => none
      | some next => buildLevels fuel next
    else some nodes

/-- The `if nodes.len() % 2 == 1 { nodes.push(nodes.last().unwrap().clone()) }`
step of `MerkleTree::new`: run once, on the leaf level only. -/
def padLast (leaves : List Node) : List Node :=
  if leaves.length % 2 == 1 then
    match leaves.getLast? with
    | some last => leaves ++ [last]
    | none => leaves
  else leaves

/-- `MerkleTree::new`: leaf nodes from the records, one duplication of the last
leaf when the leaf count is odd, then the bottom-up pairing loop. `none` marks
the panics the Rust code can reach. -/
def MerkleTree.new (data : List (List Nat)) : Option MerkleTree :=
  if data.isEmpty then some ⟨none⟩
  else
    match buildLevels (padLast (data.map Node.new_leaf)).length
        (padLast (data.map Node.new_leaf)) with
    | some (n :: _) => some ⟨some n⟩
    | _ => none

/-- `MerkleTree::root_hash`: the root digest, if a root exists. -/
def MerkleTree.root_hash (t : MerkleTree) : Option (List Nat) :=
  t.root.map Node.hash

/-! ## `MerkleProof` and proof generation -/

/-- The `MerkleProof` struct: sibling digests paired with their `is_left`
flags, the leaf digest, and the root digest recorded at generation time. -/
structure MerkleProof where
  proof_hashes : List (List Nat × Bool)
  leaf_hash : List Nat
  root_hash : List Nat

/-- The inner `build_proof` helper of `generate_proof`. The Rust version
mutates a `Vec`, pushing the sibling of each frame after a successful
recursive call, and pushes nothing on failing paths; functionally, success
returns the sibling list accumulated leaf-to-root, and failure returns
`none`. A hit in the left subtree shadows the right subtree, exactly as the
early `return true` does in Rust. -/
def build_proof : Node → List Nat → Option (List (List Nat × Bool))
  | .mk h none none, target => if h == target then some [] else none
  | .mk _ (some l) r, target =>
    match build_proof l target with
    | some p => some (p ++ (match r with | some rn => [(rn.hash, false)] | none => []))
    | none =>
      match r with
      | some rn => (build_proof rn target).map fun p => p ++ [(l.hash, true)]
      | none => none
  | .mk _ none (some rn), target => build_proof rn target

/-- `MerkleTree::generate_proof`. The Rust `found` flag is set only inside
interior-node frames, so it is true exactly when `build_proof` succeeded and
the root is not itself a leaf; only then is a proof returned. -/
def MerkleTree.generate_proof (t : MerkleTree) (data : List Nat) : Option MerkleProof :=
  let leaf_hash := sha256 data
  match t.root with
  | none => none
  | some root =>
    match build_proof root leaf_hash with
    | some p => if root.isLeaf then none else some ⟨p, leaf_hash, root.hash⟩
    | none => none

/-! ## Proof verification -/

/-- One step of the `MerkleProof::verify` loop: hash the sibling before the
running digest when `is_left` is set, after it otherwise. -/
def hashStep (cur : List Nat) (sib : List Nat × Bool) : List Nat :=
  if sib.2 then sha256 (sib.1 ++ cur) else sha256 (cur ++ sib.1)

/-- `MerkleProof::verify`: fold the sibling list over the stored leaf digest
and compare the result with the expected root, byte for byte. -/
def MerkleProof.verify (p : MerkleProof) (root_hash : List Nat) : Bool :=
  p.proof_hashes.foldl hashStep p.leaf_hash == root_hash

/-- `MerkleTree::verify_proof`: verify against this tree's root digest;
`false` when the tree is empty. -/
def MerkleTree.verify_proof (t : MerkleTree) (p : MerkleProof) : Bool :=
  match t.root with
  | some root => p.verify root.hash
  | none => false

/-! ## Derived notions used by the statements -/

/-- The digests of the leaves below a node, left to right. -/
def Node.leafHashes : Node → List (List Nat)
  | .mk h none none => [h]
  | .mk _ (some l) (some r) => l.leafHashes ++ r.leafHashes
  | .mk _ (some l) none => l.leafHashes
  | .mk _ none (some r) => r.leafHashes

/-- The structural invariant of a constructed tree, relative to a set `S` of
admissible leaf digests: every node has exactly zero or exactly two children,
every leaf digest is drawn from `S`, and every interior digest is the hash of
its two children's digests concatenated. -/
def Node.okFor (S : List (List Nat)) : Node → Bool
  | .mk h none none => S.contains h
  | .mk h (some l) (some r) => (h == sha256 (l.hash ++ r.hash)) && l.okFor S && r.okFor S
  | .mk _ _ _ => false

/-- The verification fold exactly as the specification phrases it: start from
the leaf digest; for each stored pair in order, replace the running value by
`hash(sibling ++ current)` for a left sibling and `hash(current ++ sibling)`
for a right sibling; finally compare with the expected root byte for byte. -/
def specVerify (leaf : List Nat) (sibs : List (List Nat × Bool)) (expected : List Nat) : Bool :=
  sibs.foldl (fun cur sb => if sb.2 then sha256 (sb.1 ++ cur) else sha256 (cur ++ sb.1)) leaf
    == expected

/-- Two concrete byte lists colliding under SHA-256. Collision resistance is
never assumed of the concrete function; theorems produce a collision as an
explicit disjunct instead. -/
def HashCollision : Prop := ∃ x y : List Nat, x ≠ y ∧ sha256 x = sha256 y

/-- A single-component alteration of a proof, covering every alteration the
tamper-sensitivity claim quantifies over: a change of the leaf digest, of one
sibling digest, or of one side flag (a single bit flip is a special case of
the first two, and exactly the third). -/
inductive Tamper : MerkleProof → MerkleProof → Prop
  | leaf_digest (ph : List (List Nat × Bool)) (lh lh' rh : List Nat) (hne : lh ≠ lh') :
      Tamper ⟨ph, lh, rh⟩ ⟨ph, lh', rh⟩
  | sibling_digest (pre post : List (List Nat × Bool)) (s s' : List Nat) (b : Bool)
      (lh rh : List Nat) (hne : s ≠ s') :
      Tamper ⟨pre ++ (s, b) :: post, lh, rh⟩ ⟨pre ++ (s', b) :: post, lh, rh⟩
  | side_flag (pre post : List (List Nat × Bool)) (s : List Nat) (b : Bool)
      (lh rh : List Nat) :
      Tamper ⟨pre ++ (s, b) :: post, lh, rh⟩ ⟨pre ++ (s, !b) :: post, lh, rh⟩

/-! ## Basic lemmas -/

/-- A SHA-256 digest always has 32 bytes. -/
theorem sha256_length (msg : List Nat) : (sha256 msg).length = 32 := by
  simp [sha256, wordBytes]

/-- The value `getLast?` returns is a member of the list. -/
theorem getLast?_mem {α : Type} {l : List α} {a : α} (h : l.getLast? = some a) : a ∈ l := by
  obtain ⟨hne, rfl⟩ := List.mem_getLast?_eq_getLast (Option.mem_def.mpr h)
  exact List.getLast_mem hne

/-- Padding only repeats nodes already on the level. -/
theorem padLast_subset {l : List Node} {n : Node} (h : n ∈ padLast l) : n ∈ l := by
  unfold padLast at h
  split at h
  · cases hg : l.getLast? with
    | none => rw [hg] at h; exact h
    | some last =>
      rw [hg] at h
      rcases List.mem_append.mp h with h' | h'
      · exact h'
      · simp only [List.mem_singleton] at h'
        exact h' ▸ getLast?_mem hg
  · exact h

/-- Padding preserves every leaf digest of the level. -/
theorem padLast_leafHashes_mem {l : List Node} {x : List Nat}
    (h : x ∈ (l.map Node.leafHashes).flatten) :
    x ∈ ((padLast l).map Node.leafHashes).flatten := by
  unfold padLast
  split
  · cases hg : l.getLast? with
    | none => exact h
    | some last => simp only [List.map_append, List.flatten_append, List.mem_append]; exact Or.inl h
  · exact h

/-- A nonempty leaf level is at least two nodes long after padding. -/
theorem padLast_length {l : List Node} (h : l ≠ []) : (padLast l).length > 1 := by
  have hpos : 0 < l.length := List.length_pos.mpr h
  unfold padLast
  split
  · rename_i hodd
    simp only [beq_iff_eq] at hodd
    cases hg : l.getLast? with
    | none => exact absurd (List.getLast?_eq_none_iff.mp hg) h
    | some last => simp [List.length_append]; omega
  · rename_i heven
    simp only [beq_iff_eq] at heven
    omega

/-- Parents produced by the pairing pass inherit any property closed under
`Node.new_internal`. -/
theorem pairNodes_forall {P : Node → Prop}
    (hP : ∀ a b, P a → P b → P (Node.new_internal a b)) :
    ∀ l l', pairNodes l = some l' → (∀ n ∈ l, P n) → ∀ n ∈ l', P n
  | [], _, h, _ => by
    simp only [pairNodes, Option.some.injEq] at h
    subst h; simp
  | [_], _, h, _ => by simp [pairNodes] at h
  | a :: b :: rest, l', h, hall => by
    simp only [pairNodes, Option.map_eq_some'] at h
    obtain ⟨r', hr', rfl⟩ := h
    intro n hn
    rcases List.mem_cons.mp hn with rfl | hn'
    · exact hP a b (hall a (by simp)) (hall b (by simp))
    · exact pairNodes_forall hP rest r' hr' (fun m hm => hall m (by simp [hm])) n hn'

/-- Every node the pairing pass yields is an interior node. -/
theorem pairNodes_internal :
    ∀ l l', pairNodes l = some l' → ∀ n ∈ l', ∃ a b, n = Node.new_internal a b
  | [], _, h => by
    simp only [pairNodes, Option.some.injEq] at h
    subst h; simp
  | [_], _, h => by simp [pairNodes] at h
  | a :: b :: rest, l', h => by
    simp only [pairNodes, Option.map_eq_some'] at h
    obtain ⟨r', hr', rfl⟩ := h
    intro n hn
    rcases List.mem_cons.mp hn with rfl | hn'
    · exact ⟨a, b, rfl⟩
    · exact pairNodes_internal rest r' hr' n hn'

/-- The pairing pass preserves the leaf digests of the level, in order. -/
theorem pairNodes_leafHashes :
    ∀ l l', pairNodes l = some l' →
      (l'.map Node.leafHashes).flatten = (l.map Node.leafHashes).flatten
  | [], _, h => by
    simp only [pairNodes, Option.some.injEq] at h
    subst h; rfl
  | [_], _, h => by simp [pairNodes] at h
  | a :: b :: rest, l', h => by
    simp only [pairNodes, Option.map_eq_some'] at h
    obtain ⟨r', hr', rfl⟩ := h
    have ih := pairNodes_leafHashes rest r' hr'
    simp [Node.new_internal, Node.leafHashes, ih, List.append_assoc]

/-- The bottom-up loop carries any property closed under `Node.new_internal`
from the starting level to the result. -/
theorem buildLevels_forall {P : Node → Prop}
    (hP : ∀ a b, P a → P b → P (Node.new_internal a b)) :
    ∀ fuel nodes res, buildLevels fuel nodes = some res →
      (∀ n ∈ nodes, P n) → ∀ n ∈ res, P n
  | 0, nodes, res, h, hall => by
    simp only [buildLevels] at h
    split at h
    · exact absurd h (by simp)
    · simp only [Option.some.injEq] at h; subst h; exact hall
  | fuel + 1, nodes, res, h, hall => by
    simp only [buildLevels] at h
    split at h
    · cases hp : pairNodes nodes with
      | none => rw [hp] at h; exact absurd h (by simp)
      | some next =>
        rw [hp] at h
        exact buildLevels_forall hP fuel next res h (pairNodes_forall hP _ _ hp hall)
    · simp only [Option.some.injEq] at h; subst h; exact hall

/-- The bottom-up loop preserves the leaf digests of the starting level. -/
theorem buildLevels_leafHashes :
    ∀ fuel nodes res, buildLevels fuel nodes = some res →
      (res.map Node.leafHashes).flatten = (nodes.map Node.leafHashes).flatten
  | 0, nodes, res, h => by
    simp only [buildLevels] at h
    split at h
    · exact absurd h (by simp)
    · simp only [Option.some.injEq] at h; subst h; rfl
  | fuel + 1, nodes, res, h => by
    simp only [buildLevels] at h
    split at h
    · cases hp : pairNodes nodes with
      | none => rw [hp] at h; exact absurd h (by simp)
      | some next =>
        rw [hp] at h
        rw [buildLevels_leafHashes fuel next res h, pairNodes_leafHashes _ _ hp]
    · simp only [Option.some.injEq] at h; subst h; rfl

/-- When the loop returns, at most one node is left. -/
theorem buildLevels_length :
    ∀ fuel nodes res, buildLevels fuel nodes = some res → res.length ≤ 1
  | 0, nodes, res, h => by
    simp only [buildLevels] at h
    split at h
    · exact absurd h (by simp)
    · rename_i hgt
      simp only [Option.some.injEq] at h; subst h; omega
  | fuel + 1, nodes, res, h => by
    simp only [buildLevels] at h
    split at h
    · cases hp : pairNodes nodes with
      | none => rw [hp] at h; exact absurd h (by simp)
      | some next => rw [hp] at h; exact buildLevels_length fuel next res h
    · rename_i hgt
      simp only [Option.some.injEq] at h; subst h; omega

/-- Starting from more than one node, the loop ends on interior nodes only. -/
theorem buildLevels_internal :
    ∀ fuel nodes res, buildLevels fuel nodes = some res → nodes.length > 1 →
      ∀ n ∈ res, ∃ a b, n = Node.new_internal a b
  | 0, nodes, res, h, hgt => by
    simp only [buildLevels] at h
    rw [if_pos hgt] at h
    exact absurd h (by simp)
  | fuel + 1, nodes, res, h, hgt => by
    simp only [buildLevels] at h
    rw [if_pos hgt] at h
    cases hp : pairNodes nodes with
    | none => rw [hp] at h; exact absurd h (by simp)
    | some next =>
      rw [hp] at h
      exact buildLevels_forall (fun a b _ _ => ⟨a, b, rfl⟩) fuel next res h
        (pairNodes_internal _ _ hp)

/-! ## Lemmas about `build_proof` -/

/-- A record digest present among a subtree's leaves is always found. -/
theorem build_proof_found :
    ∀ (n : Node) (target : List Nat), target ∈ n.leafHashes →
      (build_proof n target).isSome
  | .mk hh none none, target, h => by
    simp only [Node.leafHashes, List.mem_singleton] at h
    simp [build_proof, h]
  | .mk hh (some l) (some r), target, h => by
    simp only [Node.leafHashes, List.mem_append] at h
    rcases h with hl | hr
    · have := build_proof_found l target hl
      cases hbl : build_proof l target with
      | none => rw [hbl] at this; simp at this
      | some p => simp [build_proof, hbl]
    · have := build_proof_found r target hr
      cases hbl : build_proof l target with
      | none =>
        cases hbr : build_proof r target with
        | none => rw [hbr] at this; simp at this
        | some p => simp [build_proof, hbl, hbr]
      | some p => simp [build_proof, hbl]
  | .mk hh (some l) none, target, h => by
    simp only [Node.leafHashes] at h
    have := build_proof_found l target h
    cases hbl : build_proof l target with
    | none => rw [hbl] at this; simp at this
    | some p => simp [build_proof, hbl]
  | .mk hh none (some r), target, h => by
    simp only [Node.leafHashes] at h
    have := build_proof_found r target h
    cases hbr : build_proof r target with
    | none => rw [hbr] at this; simp at this
    | some p => simp [build_proof, hbr]

/-- Only leaf digests are ever matched: a target that is no leaf's digest
makes the search fail, whatever interior digests happen to equal it. -/
theorem build_proof_none :
    ∀ (n : Node) (target : List Nat), target ∉ n.leafHashes →
      build_proof n target = none
  | .mk hh none none, target, hmem => by
    simp only [Node.leafHashes, List.mem_singleton] at hmem
    simp only [build_proof, beq_iff_eq]
    rw [if_neg fun h => hmem h.symm]
  | .mk hh (some l) (some r), target, hmem => by
    simp only [Node.leafHashes, List.mem_append] at hmem
    push_neg at hmem
    simp [build_proof, build_proof_none l target hmem.1, build_proof_none r target hmem.2]
  | .mk hh (some l) none, target, hmem => by
    simp only [Node.leafHashes] at hmem
    simp [build_proof, build_proof_none l target hmem]
  | .mk hh none (some r), target, hmem => by
    simp only [Node.leafHashes] at hmem
    simp only [build_proof]
    exact build_proof_none r target hmem

/-- On a well-formed subtree, the sibling list `build_proof` returns folds the
target digest back to the subtree's digest. -/
theorem build_proof_fold {S : List (List Nat)} :
    ∀ (n : Node) (target : List Nat) (p : List (List Nat × Bool)),
      n.okFor S = true → build_proof n target = some p →
      p.foldl hashStep target = n.hash
  | .mk hh none none, target, p, _, hbp => by
    simp only [build_proof] at hbp
    split at hbp
    · rename_i hbe
      simp only [Option.some.injEq] at hbp
      subst hbp
      simp only [List.foldl_nil, Node.hash]
      exact (beq_iff_eq.mp hbe).symm
    · exact absurd hbp (by simp)
  | .mk hh (some l) (some r), target, p, hok, hbp => by
    simp only [Node.okFor, Bool.and_eq_true, beq_iff_eq] at hok
    obtain ⟨⟨hh_eq, hokl⟩, hokr⟩ := hok
    simp only [build_proof] at hbp
    cases hbl : build_proof l target with
    | some pl =>
      rw [hbl] at hbp
      simp only [Option.some.injEq] at hbp
      subst hbp
      have ih := build_proof_fold l target pl hokl hbl
      rw [List.foldl_append]
      simp [hashStep, ih, hh_eq, Node.hash]
    | none =>
      rw [hbl] at hbp
      cases hbr : build_proof r target with
      | some pr =>
        rw [hbr] at hbp
        simp only [Option.map_some', Option.some.injEq] at hbp
        subst hbp
        have ih := build_proof_fold r target pr hokr hbr
        rw [List.foldl_append]
        simp [hashStep, ih, hh_eq, Node.hash]
      | none => rw [hbr] at hbp; exact absurd hbp (by simp)
  | .mk hh (some l) none, target, p, hok, hbp => by
    simp [Node.okFor] at hok
  | .mk hh none (some r), target, p, hok, hbp => by
    simp [Node.okFor] at hok

/-! ## What construction guarantees -/

/-- Flattening singleton images recovers the map. -/
theorem flatten_map_singleton {α β : Type} (f : α → β) :
    ∀ l : List α, (l.map fun a => [f a]).flatten = l.map f
  | [] => rfl
  | a :: l => by simp [flatten_map_singleton f l]

/-- The invariant is closed under the interior-node constructor. -/
theorem okFor_new_internal {S : List (List Nat)} {a b : Node}
    (ha : a.okFor S = true) (hb : b.okFor S = true) :
    (Node.new_internal a b).okFor S = true := by
  simp [Node.new_internal, Node.okFor, ha, hb]

/-- What a successful `MerkleTree::new` on a nonempty record list guarantees:
the tree has a root, the root is an interior node, the whole tree satisfies
the structural invariant relative to the record digests, and every record's
digest appears among the root's leaf digests. -/
theorem new_some {data : List (List Nat)} {t : MerkleTree}
    (h : MerkleTree.new data = some t) (hne : data ≠ []) :
    ∃ root, t.root = some root ∧
      (∃ a b, root = Node.new_internal a b) ∧
      root.okFor (data.map sha256) = true ∧
      ∀ d ∈ data, sha256 d ∈ root.leafHashes := by
  have hie : data.isEmpty = false := by
    cases data with
    | nil => exact absurd rfl hne
    | cons a l => rfl
  rw [MerkleTree.new, hie] at h
  simp only [Bool.false_eq_true, if_false] at h
  have hmapne : data.map Node.new_leaf ≠ [] := by
    cases data with
    | nil => exact absurd rfl hne
    | cons a l => simp
  have hlen : (padLast (data.map Node.new_leaf)).length > 1 := padLast_length hmapne
  cases hb : buildLevels (padLast (data.map Node.new_leaf)).length
      (padLast (data.map Node.new_leaf)) with
  | none => rw [hb] at h; exact absurd h (by simp)
  | some res =>
    rw [hb] at h
    cases res with
    | nil => exact absurd h (by simp)
    | cons n rest =>
      simp only [Option.some.injEq] at h
      have hrest : rest = [] := by
        have hle := buildLevels_length _ _ _ hb
        simp only [List.length_cons] at hle
        exact List.eq_nil_of_length_eq_zero (by omega)
      subst hrest
      subst h
      refine ⟨n, rfl, ?_, ?_, ?_⟩
      · exact buildLevels_internal _ _ _ hb hlen n (by simp)
      · refine buildLevels_forall (P := fun nd => nd.okFor (data.map sha256) = true)
          (fun a b ha hb => okFor_new_internal ha hb) _ _ _ hb ?_ n (by simp)
        intro m hm
        obtain ⟨d, hd, rfl⟩ := List.mem_map.mp (padLast_subset hm)
        simp only [Node.new_leaf, Node.okFor]
        simp [List.contains, List.elem_iff]
        exact ⟨d, hd, rfl⟩
      · intro d hd
        have hflat := buildLevels_leafHashes _ _ _ hb
        have hmem : sha256 d ∈ ((padLast (data.map Node.new_leaf)).map Node.leafHashes).flatten := by
          apply padLast_leafHashes_mem
          have : ((data.map Node.new_leaf).map Node.leafHashes).flatten = data.map sha256 := by
            rw [List.map_map]
            have : (Node.leafHashes ∘ Node.new_leaf) = fun d => [sha256 d] := by
              funext x; simp [Node.new_leaf, Node.leafHashes]
            rw [this, flatten_map_singleton]
          rw [this]
          exact List.mem_map.mpr ⟨d, hd, rfl⟩
        rw [← hflat] at hmem
        simpa using hmem

/-! ## Tampering and collisions -/

/-- Distinct running digests fed through the same verification suffix stay
distinct, or two concrete colliding inputs are exhibited along the way. -/
theorem fold_distinct :
    ∀ (post : List (List Nat × Bool)) (c c' : List Nat), c ≠ c' →
      post.foldl hashStep c = post.foldl hashStep c' → HashCollision
  | [], _, _, hne, heq => absurd heq hne
  | (s, b) :: post, c, c', hne, heq => by
    by_cases hstep : hashStep c (s, b) = hashStep c' (s, b)
    · cases b with
      | true =>
        exact ⟨s ++ c, s ++ c', fun hc => hne (List.append_cancel_left hc),
          by simpa [hashStep] using hstep⟩
      | false =>
        exact ⟨c ++ s, c' ++ s, fun hc => hne (List.append_cancel_right hc),
          by simpa [hashStep] using hstep⟩
    · exact fold_distinct post _ _ hstep (by simpa [List.foldl_cons] using heq)

/-! ## The claims -/

/-- A pair tree whose left child is the leaf of the queried record: the
search hits that leaf and records the right child as a right sibling. -/
theorem generate_proof_pair (d : List Nat) (r : Node) :
    MerkleTree.generate_proof ⟨some (Node.new_internal (Node.new_leaf d) r)⟩ d
      = some ⟨[(r.hash, false)], sha256 d, sha256 (sha256 d ++ r.hash)⟩ := by
  have hbl : build_proof (Node.new_leaf d) (sha256 d) = some [] := by
    simp [Node.new_leaf, build_proof]
  simp only [MerkleTree.generate_proof, Node.new_internal, Node.new_leaf]
  simp only [build_proof, hbl]
  simp [Node.isLeaf, Node.hash, Node.new_leaf]

/-- C1: the claim says the last node of *every* level with an odd node count
is cloned and appended before pairing. The code clones only at the leaf
level: with six records the interior level of three nodes is reached
unpadded, and the pairing loop reads `nodes[i + 1]` out of bounds there
(modelled as `none`), instead of padding the level as claimed. -/
theorem C1_no_interior_padding :
    MerkleTree.new [[0], [1], [2], [3], [4], [5]] = none := rfl

/-- C2: the claim says construction never fails on any well-formed record
list. It does fail: five records are padded to six leaves, the next interior
level has three nodes, and the pairing loop's `nodes[i + 1]` read panics
(modelled as `none`). -/
theorem C2_construction_panics :
    MerkleTree.new [[0], [1], [2], [3], [4]] = none := rfl

/-- C3: inclusion round-trip. For every record list whose construction
succeeds and every record occurring in it, `generate_proof` returns a proof
and `verify_proof` accepts it against the tree's own root. -/
theorem C3_inclusion_roundtrip (data : List (List Nat)) (r : List Nat) (t : MerkleTree)
    (hr : r ∈ data) (ht : MerkleTree.new data = some t) :
    ∃ p, t.generate_proof r = some p ∧ t.verify_proof p = true := by
  have hne : data ≠ [] := fun hc => by subst hc; simp at hr
  obtain ⟨root, hroot, ⟨a, b, hint⟩, hok, hleaf⟩ := new_some ht hne
  have hfound := build_proof_found root (sha256 r) (hleaf r hr)
  cases hbp : build_proof root (sha256 r) with
  | none => rw [hbp] at hfound; simp at hfound
  | some p =>
    have hnl : root.isLeaf = false := by subst hint; rfl
    refine ⟨⟨p, sha256 r, root.hash⟩, ?_, ?_⟩
    · simp [MerkleTree.generate_proof, hroot, hbp, hnl]
    · have hfold := build_proof_fold root (sha256 r) p hok hbp
      simp [MerkleTree.verify_proof, hroot, MerkleProof.verify, hfold]

/-- Witness for C3 at the two-record list `[[0], [1]]` and the record `[0]`. -/
theorem C3_witness :
    ∃ p, MerkleTree.generate_proof
        ⟨some (Node.new_internal (Node.new_leaf [0]) (Node.new_leaf [1]))⟩ [0] = some p ∧
      MerkleTree.verify_proof
        ⟨some (Node.new_internal (Node.new_leaf [0]) (Node.new_leaf [1]))⟩ p = true :=
  C3_inclusion_roundtrip [[0], [1]] [0]
    ⟨some (Node.new_internal (Node.new_leaf [0]) (Node.new_leaf [1]))⟩
    (by simp) rfl

/-- C4 counterexample: on the single-record tree over "A" (byte 65),
`generate_proof` returns a proof whose single side flag is `false`; flipping
that bit to `true` still verifies against the same root, because the sibling
is the duplicated leaf digest itself, so both hash inputs are byte-identical
— no hash collision is involved. -/
theorem C4_counterexample :
    (MerkleTree.new [[65]]).bind (fun t => t.generate_proof [65])
      = some ⟨[(sha256 [65], false)], sha256 [65], sha256 (sha256 [65] ++ sha256 [65])⟩ ∧
    MerkleProof.verify ⟨[(sha256 [65], false)], sha256 [65], sha256 (sha256 [65] ++ sha256 [65])⟩
      (sha256 (sha256 [65] ++ sha256 [65])) = true ∧
    MerkleProof.verify ⟨[(sha256 [65], true)], sha256 [65], sha256 (sha256 [65] ++ sha256 [65])⟩
      (sha256 (sha256 [65] ++ sha256 [65])) = true := by
  refine ⟨?_, ?_, ?_⟩
  · have h1 : MerkleTree.new [[65]]
        = some ⟨some (Node.new_internal (Node.new_leaf [65]) (Node.new_leaf [65]))⟩ := rfl
    rw [h1, Option.some_bind, generate_proof_pair [65] (Node.new_leaf [65])]
    rfl
  · simp [MerkleProof.verify, hashStep]
  · simp [MerkleProof.verify, hashStep]

/-- C4 (amended): altering a verifying proof's leaf digest or one sibling
digest makes verification fail unless two concrete colliding SHA-256 inputs
exist; flipping one side flag likewise fails unless such a collision exists
*or* the flag sits at a step where sibling and running digest concatenate
equally on both sides (as the duplicate-padding sibling does, where both hash
inputs coincide and the flip is undetectable). -/
theorem C4_tamper_sensitivity (p p' : MerkleProof) (root : List Nat)
    (ht : Tamper p p') (h1 : p.verify root = true) (h2 : p'.verify root = true) :
    HashCollision ∨
      ∃ pre post s b, p.proof_hashes = pre ++ (s, b) :: post ∧
        p'.proof_hashes = pre ++ (s, !b) :: post ∧
        s ++ pre.foldl hashStep p.leaf_hash = pre.foldl hashStep p.leaf_hash ++ s := by
  cases ht with
  | leaf_digest ph lh lh' rh hne =>
    left
    simp only [MerkleProof.verify, beq_iff_eq] at h1 h2
    exact fold_distinct ph lh lh' hne (h1.trans h2.symm)
  | sibling_digest pre post s s' b lh rh hne =>
    left
    simp only [MerkleProof.verify, beq_iff_eq, List.foldl_append, List.foldl_cons] at h1 h2
    by_cases hstep : hashStep (pre.foldl hashStep lh) (s, b)
        = hashStep (pre.foldl hashStep lh) (s', b)
    · cases b with
      | true =>
        exact ⟨s ++ pre.foldl hashStep lh, s' ++ pre.foldl hashStep lh,
          fun hcc => hne (List.append_cancel_right hcc), by simpa [hashStep] using hstep⟩
      | false =>
        exact ⟨pre.foldl hashStep lh ++ s, pre.foldl hashStep lh ++ s',
          fun hcc => hne (List.append_cancel_left hcc), by simpa [hashStep] using hstep⟩
    · exact fold_distinct post _ _ hstep (h1.trans h2.symm)
  | side_flag pre post s b lh rh =>
    by_cases hcomm : s ++ pre.foldl hashStep lh = pre.foldl hashStep lh ++ s
    · exact Or.inr ⟨pre, post, s, b, rfl, rfl, hcomm⟩
    · left
      simp only [MerkleProof.verify, beq_iff_eq, List.foldl_append, List.foldl_cons] at h1 h2
      by_cases hstep : hashStep (pre.foldl hashStep lh) (s, b)
          = hashStep (pre.foldl hashStep lh) (s, !b)
      · cases b with
        | true =>
          exact ⟨s ++ pre.foldl hashStep lh, pre.foldl hashStep lh ++ s, hcomm,
            by simpa [hashStep] using hstep⟩
        | false =>
          exact ⟨pre.foldl hashStep lh ++ s, s ++ pre.foldl hashStep lh,
            fun hcc => hcomm hcc.symm, by simpa [hashStep] using hstep⟩
      · exact fold_distinct post _ _ hstep (h1.trans h2.symm)

/-- Witness for C4 (amended) at the flag flip of the single-record proof:
both proofs verify, and the conclusion's second disjunct holds because the
sibling equals the running digest. -/
theorem C4_witness :
    HashCollision ∨
      ∃ pre post s b,
        ([(sha256 [65], false)] : List (List Nat × Bool)) = pre ++ (s, b) :: post ∧
        ([(sha256 [65], true)] : List (List Nat × Bool)) = pre ++ (s, !b) :: post ∧
        s ++ pre.foldl hashStep (sha256 [65]) = pre.foldl hashStep (sha256 [65]) ++ s :=
  C4_tamper_sensitivity
    ⟨[(sha256 [65], false)], sha256 [65], sha256 (sha256 [65] ++ sha256 [65])⟩
    ⟨[(sha256 [65], true)], sha256 [65], sha256 (sha256 [65] ++ sha256 [65])⟩
    (sha256 (sha256 [65] ++ sha256 [65]))
    (Tamper.side_flag [] [] (sha256 [65]) false (sha256 [65])
      (sha256 (sha256 [65] ++ sha256 [65])))
    (by simp [MerkleProof.verify, hashStep])
    (by simp [MerkleProof.verify, hashStep])

/-- C5: `MerkleProof::verify` is exactly the pure fold the spec describes —
it coincides with `specVerify` on the stored leaf digest and sibling list,
and returns `true` precisely when the folded value equals the expected root
byte for byte; being a total function, it raises nothing. -/
theorem C5_verify_is_spec_fold (p : MerkleProof) (expected : List Nat) :
    p.verify expected = specVerify p.leaf_hash p.proof_hashes expected ∧
    (p.verify expected = true ↔ p.proof_hashes.foldl hashStep p.leaf_hash = expected) := by
  refine ⟨rfl, ?_⟩
  simp [MerkleProof.verify]

/-- C6: the tree built from the one-record list `["A"]` (byte 65) has root
digest `sha256(leaf ++ leaf)` where `leaf = sha256 "A"` — the lone leaf is
duplicated before the final hash — which is also the root digest of the tree
built from `["A", "A"]`. -/
theorem C6_single_record :
    (MerkleTree.new [[65]]).bind MerkleTree.root_hash
        = some (sha256 (sha256 [65] ++ sha256 [65])) ∧
    (MerkleTree.new [[65]]).bind MerkleTree.root_hash
        = (MerkleTree.new [[65], [65]]).bind MerkleTree.root_hash :=
  ⟨rfl, rfl⟩

/-- C7: the empty record list builds the rootless tree; its root digest is
`none` and proof generation returns `none` on every record, with no fatal
condition (both functions are total). -/
theorem C7_empty_tree (data : List Nat) :
    MerkleTree.new [] = some ⟨none⟩ ∧
    MerkleTree.root_hash ⟨none⟩ = none ∧
    MerkleTree.generate_proof ⟨none⟩ data = none :=
  ⟨rfl, rfl, rfl⟩

/-- C8: every tree a successful construction returns satisfies the structural
invariant `Node.okFor` relative to the record digests: each node has exactly
zero children (a leaf, whose digest is the SHA-256 of one input record) or
exactly two (an interior node, whose digest is the SHA-256 of its children's
digests concatenated); any single-child node falsifies the invariant. -/
theorem C8_zero_or_two_children (data : List (List Nat)) (t : MerkleTree) (root : Node)
    (h : MerkleTree.new data = some t) (hroot : t.root = some root) :
    root.okFor (data.map sha256) = true := by
  rcases Decidable.em (data = []) with rfl | hne
  · rw [MerkleTree.new] at h
    simp only [List.isEmpty_nil, if_true, Option.some.injEq] at h
    subst h
    simp at hroot
  · obtain ⟨root', hr', _, hok, _⟩ := new_some h hne
    rw [hr', Option.some.injEq] at hroot
    exact hroot ▸ hok

/-- Witness for C8 on the two-record tree over `[[0], [1]]`. -/
theorem C8_witness :
    (Node.new_internal (Node.new_leaf [0]) (Node.new_leaf [1])).okFor
      ([[0], [1]].map sha256) = true :=
  C8_zero_or_two_children [[0], [1]]
    ⟨some (Node.new_internal (Node.new_leaf [0]) (Node.new_leaf [1]))⟩
    (Node.new_internal (Node.new_leaf [0]) (Node.new_leaf [1])) rfl rfl

/-- C9: proof generation matches only leaf digests. Whenever the queried
record's digest is not the digest of any leaf of the tree, `generate_proof`
returns `none` — in particular even when that digest equals some interior
node's digest, since interior digests are never compared with the target. -/
theorem C9_only_leaves_match (t : MerkleTree) (root : Node) (data : List Nat)
    (hroot : t.root = some root) (hnl : sha256 data ∉ root.leafHashes) :
    t.generate_proof data = none := by
  simp [MerkleTree.generate_proof, hroot, build_proof_none root (sha256 data) hnl]

/-- Witness for C9 on a tree whose root digest *equals* the queried record's
digest while no leaf digest does: the query still returns `none`. -/
theorem C9_witness :
    MerkleTree.generate_proof
      ⟨some (Node.mk (sha256 [5]) (some (Node.mk [1] none none))
        (some (Node.mk [2] none none)))⟩ [5] = none :=
  C9_only_leaves_match
    ⟨some (Node.mk (sha256 [5]) (some (Node.mk [1] none none))
      (some (Node.mk [2] none none)))⟩
    (Node.mk (sha256 [5]) (some (Node.mk [1] none none)) (some (Node.mk [2] none none)))
    [5] rfl
    (by
      intro hmem
      have h32 := sha256_length [5]
      simp only [Node.leafHashes, List.mem_append, List.mem_singleton] at hmem
      rcases hmem with h | h <;> rw [h] at h32 <;> simp at h32)

/-- C10: the root digest recorded in a proof at generation time is never read
by verification: proofs differing only in that stored field verify
identically against every expected root. -/
theorem C10_stored_root_unread (ph : List (List Nat × Bool))
    (lh rh rh' expected : List Nat) :
    (MerkleProof.mk ph lh rh).verify expected
      = (MerkleProof.mk ph lh rh').verify expected := rfl
